import Mathlib

/-!
# Verification of the biometric attendance reconciliation module

Shallow embedding of `models/biometric_device_details.py`
(`action_download_attendance` and its per-punch reconciliation loop) and of
`models/hr_attendance_overtime.py` (`HrAttendanceOvertime.create`).

Timestamps are modelled as integers (seconds); the timezone conversion of the
source (localize in the acting user's zone, convert to UTC, truncate to whole
seconds) is modelled as subtraction of a fixed offset, since only a fixed-offset
zone is observable at the granularity the claims need.
-/

namespace Biometric

/-- A raw punch record as returned by the device's `get_attendance()`. -/
structure RawPunch where
  user_id : Nat
  timestamp : Int
  punch : Nat
  status : Nat
deriving DecidableEq, Repr

/-- An entry of the device's user directory, from `get_users()`. -/
structure DeviceUser where
  user_id : Nat
  name : String
deriving DecidableEq, Repr

/-- An `hr.employee` record (the fields the module touches). -/
structure Employee where
  id : Nat
  device_id_num : Nat
  name : String
deriving DecidableEq, Repr

/-- A `zk.machine.attendance` audit record.  The source stores
`attendance_type`/`punch_type` as `str(each.status)`/`str(each.punch)`;
since `str` is injective on the codes we keep the numeric codes. -/
structure ZkAttendance where
  employee_id : Nat
  device_id_num : Nat
  attendance_type : Nat
  punch_type : Nat
  punching_time : Int
  address_id : Nat
deriving DecidableEq, Repr

/-- An `hr.attendance` interval: check-in instant and optional check-out. -/
structure HrAttendance where
  id : Nat
  employee_id : Nat
  check_in : Int
  check_out : Option Int
deriving DecidableEq, Repr

/-- The ledger: employee table, audit log and attendance intervals, with the
fresh-id counters of the database.  Records are appended in id order, which is
how the backing store returns them for an unordered search. -/
structure LedgerState where
  employees : List Employee
  zk : List ZkAttendance
  hr : List HrAttendance
  nextEmpId : Nat
  nextHrId : Nat
deriving DecidableEq, Repr

/-- The canonical UTC instant of a punch: the source localizes the naive
device timestamp in the user's timezone and converts to UTC (lines 196-203). -/
def canonTime (tz : Int) (p : RawPunch) : Int :=
  p.timestamp - tz

/-- `self.env["hr.employee"].search([("device_id_num", "=", each.user_id)])`
(line 207): first matching employee in id order, if any. -/
def searchEmployee (s : LedgerState) (uid : Nat) : Option Employee :=
  s.employees.find? (fun e => e.device_id_num == uid)

/-- The duplicate filter (lines 211-216): an audit record with the same
device user id and the same canonical punching time already exists.
Note the search domain has no source-device condition. -/
def isDuplicate (s : LedgerState) (uid : Nat) (t : Int) : Bool :=
  s.zk.any (fun r => r.device_id_num == uid && r.punching_time == t)

/-- One step of the maximal-check-in selection. -/
def laStep (acc : Option HrAttendance) (r : HrAttendance) : Option HrAttendance :=
  match acc with
  | none => some r
  | some m => if m.check_in < r.check_in then some r else acc

/-- `hr_attendance.search([("employee_id", "=", ...)], order="check_in desc",
limit=1)` (lines 218-222): a record of the employee with maximal check-in.
The backend leaves ties unordered; we fix the earliest-created maximum. -/
def lastAttendance (s : LedgerState) (eid : Nat) : Option HrAttendance :=
  (s.hr.filter (fun r => r.employee_id == eid)).foldl laStep none

/-- The audit record written by every `zk_attendance.create` site. -/
def mkZk (e : Employee) (p : RawPunch) (t : Int) (addr : Nat) : ZkAttendance :=
  { employee_id := e.id
    device_id_num := p.user_id
    attendance_type := p.status
    punch_type := p.punch
    punching_time := t
    address_id := addr }

/-- `last_attendance.write({"check_out": atten_time})`: set the check-out of
the record with the given id. -/
def closeAt (hr : List HrAttendance) (hid : Nat) (t : Int) : List HrAttendance :=
  hr.map (fun r => if r.id == hid then { r with check_out := some t } else r)

/-- The body executed for a punch once a matching user-directory entry is
found (lines 206-371): resolve the employee, filter duplicates, and reconcile
against the most recent interval. `t` is the canonical UTC instant. -/
def processMatchedUser (addr : Nat) (uname : String) (p : RawPunch) (t : Int)
    (s : LedgerState) : LedgerState :=
  match searchEmployee s p.user_id with
  | some e =>
    if isDuplicate s p.user_id t then s
    else
      match lastAttendance s e.id with
      | some last =>
        match last.check_out with
        | none =>
          -- last interval is open
          if p.punch = 0 then
            { s with
              hr := closeAt s.hr last.id t ++ [⟨s.nextHrId, e.id, t, none⟩]
              zk := s.zk ++ [mkZk e p t addr]
              nextHrId := s.nextHrId + 1 }
          else if p.punch = 1 then
            { s with
              hr := closeAt s.hr last.id t
              zk := s.zk ++ [mkZk e p t addr] }
          else s
        | some co =>
          -- last interval is closed
          if p.punch = 0 then
            { s with
              hr := s.hr ++ [⟨s.nextHrId, e.id, t, none⟩]
              zk := s.zk ++ [mkZk e p t addr]
              nextHrId := s.nextHrId + 1 }
          else if p.punch = 1 then
            if t - co ≤ 180 then
              { s with
                hr := s.hr ++ [⟨s.nextHrId, e.id, co, some t⟩]
                zk := s.zk ++ [mkZk e p t addr]
                nextHrId := s.nextHrId + 1 }
            else
              { s with
                hr := s.hr ++ [⟨s.nextHrId, e.id, t, none⟩]
                zk := s.zk ++ [mkZk e p t addr]
                nextHrId := s.nextHrId + 1 }
          else s
      | none =>
        -- no previous attendance: treat as check-in (any punch code)
        { s with
          hr := s.hr ++ [⟨s.nextHrId, e.id, t, none⟩]
          zk := s.zk ++ [mkZk e p t addr]
          nextHrId := s.nextHrId + 1 }
  | none =>
    -- create a new employee record, then a check-in and an audit record
    let emp : Employee := ⟨s.nextEmpId, p.user_id, uname⟩
    { s with
      employees := s.employees ++ [emp]
      hr := s.hr ++ [⟨s.nextHrId, emp.id, t, none⟩]
      zk := s.zk ++ [mkZk emp p t addr]
      nextEmpId := s.nextEmpId + 1
      nextHrId := s.nextHrId + 1 }

/-- Processing of one punch (lines 195-371): the canonical time is computed
once, then the body runs for every user-directory entry whose id matches. -/
def processPunch (addr : Nat) (tz : Int) (users : List DeviceUser)
    (p : RawPunch) (s : LedgerState) : LedgerState :=
  users.foldl
    (fun st u =>
      if u.user_id == p.user_id then
        processMatchedUser addr u.name p (canonTime tz p) st
      else st)
    s

/-- The per-punch loop of the download cycle, in the order the device
returned the punches (no sorting happens in the source). -/
def runD (addr : Nat) (tz : Int) (users : List DeviceUser)
    (punches : List RawPunch) (s : LedgerState) : LedgerState :=
  punches.foldl (fun st p => processPunch addr tz users p st) s

/-- Connection state of the device session. -/
structure DeviceConn where
  connected : Bool
  disabled : Bool
deriving DecidableEq, Repr

/-- `action_download_attendance` (lines 163-384) for one device: connect,
disable the device, fetch users and punches, run the loop and return `True`;
raise a user error when the log is empty or the connection fails.  The final
`conn.disconnect` of the source (line 372) is an attribute access, not a
call, so it leaves the session state unchanged, and no `enable_device` call
exists anywhere in the function. -/
def action_download_attendance (canConnect : Bool) (addr : Nat) (tz : Int)
    (users : List DeviceUser) (punches : List RawPunch) (s : LedgerState) :
    Except String (Bool × DeviceConn × LedgerState) :=
  if canConnect then
    let conn : DeviceConn := { connected := true, disabled := true }
    if punches.isEmpty then
      .error "Unable to get the attendance log, please try again later."
    else
      .ok (true, conn, runD addr tz users punches s)
  else
    .error "Unable to connect, please check the parameters and network connections."

/-- One punch step in a context where the external ledger writes may raise:
`fails p` says the write performed while processing `p` raises.  The loop of
the source contains no per-punch exception handler. -/
def processPunchE (fails : RawPunch → Bool) (addr : Nat) (tz : Int)
    (users : List DeviceUser) (p : RawPunch) (s : LedgerState) :
    Except String LedgerState :=
  if fails p then .error "write error"
  else .ok (processPunch addr tz users p s)

/-- The per-punch loop with possibly-raising writes: an exception propagates
out of the loop, and on success the function returns `True` (line 373). -/
def runE (fails : RawPunch → Bool) (addr : Nat) (tz : Int)
    (users : List DeviceUser) :
    List RawPunch → LedgerState → Except String (Bool × LedgerState)
  | [], s => .ok (true, s)
  | p :: ps, s =>
    match processPunchE fails addr tz users p s with
    | .ok s' => runE fails addr tz users ps s'
    | .error e => .error e

/-- Modelled from the spec, for the refinement comparison of the duplicate
filter: a filter keyed on the full (user id, timestamp, source device)
triple, which is what §4.3 of the spec describes.  The source's filter
(`isDuplicate`) has no device condition. -/
def isDuplicateSpecTriple (s : LedgerState) (uid : Nat) (t : Int)
    (addr : Nat) : Bool :=
  s.zk.any (fun r =>
    r.device_id_num == uid && r.punching_time == t && r.address_id == addr)

/-- Modelled from the spec, for the comparison of processing orders:
insertion of a punch into a list sorted by canonical time. -/
def insertByTime (tz : Int) (p : RawPunch) : List RawPunch → List RawPunch
  | [] => [p]
  | q :: qs =>
    if canonTime tz p ≤ canonTime tz q then p :: q :: qs
    else q :: insertByTime tz p qs

/-- Modelled from the spec: the punch list sorted by ascending canonical
time, the order §4.4's tie-break rule asks for. -/
def sortByTime (tz : Int) : List RawPunch → List RawPunch
  | [] => []
  | p :: ps => insertByTime tz p (sortByTime tz ps)

/-- Invariant I2 at one employee: any two open intervals of the employee are
the same record. -/
def atMostOneOpen (s : LedgerState) (eid : Nat) : Prop :=
  ∀ r1 ∈ s.hr, ∀ r2 ∈ s.hr,
    r1.employee_id = eid → r2.employee_id = eid →
    r1.check_out = none → r2.check_out = none → r1.id = r2.id

/-! ## The overtime-create override (`hr_attendance_overtime.py`) -/

/-- An `hr.attendance.overtime` record (identity plus its values). -/
structure OvertimeRecord where
  id : Nat
  employee_id : Nat
  duration : Int
deriving DecidableEq, Repr

/-- The overtime store with its fresh-id counter. -/
structure OvertimeStore where
  records : List OvertimeRecord
  nextId : Nat
deriving DecidableEq, Repr

/-- Values passed to `create`. -/
structure OvertimeVals where
  employee_id : Nat
  duration : Int
deriving DecidableEq, Repr

/-- `super(HrAttendanceOvertime, self).create(vals)`: the standard create,
which inserts a record and returns the recordset holding it. -/
def overtimeSuperCreate (st : OvertimeStore) (vals : OvertimeVals) :
    OvertimeStore × List OvertimeRecord :=
  let r : OvertimeRecord := ⟨st.nextId, vals.employee_id, vals.duration⟩
  ({ records := st.records ++ [r], nextId := st.nextId + 1 }, [r])

/-- `HrAttendanceOvertime.create` (lines 8-14): with the
`no_overtime_creation` context flag the store is untouched and the empty
recordset `self.browse()` is returned; otherwise the standard create runs. -/
def HrAttendanceOvertime.create (noOvertimeCreation : Bool)
    (st : OvertimeStore) (vals : OvertimeVals) :
    OvertimeStore × List OvertimeRecord :=
  if noOvertimeCreation then (st, [])
  else overtimeSuperCreate st vals

instance (s : LedgerState) (eid : Nat) : Decidable (atMostOneOpen s eid) := by
  unfold atMostOneOpen; exact inferInstance

/-! ## Auxiliary predicates for the invariant and idempotence proofs -/

/-- Facts about a (punch, canonical time) pair that make its processing a
guaranteed no-op: the employee resolves, and either the audit log already
holds the pair, or the punch code is unmapped and the employee has at least
one interval. -/
def HandledCore (p : RawPunch) (t : Int) (s : LedgerState) : Prop :=
  ∃ e, searchEmployee s p.user_id = some e ∧
    (isDuplicate s p.user_id t = true ∨
      (p.punch ≠ 0 ∧ p.punch ≠ 1 ∧ ∃ r ∈ s.hr, r.employee_id = e.id))

/-- A punch is settled for a given user directory: either no directory entry
matches it (so the loop body never fires), or `HandledCore` holds. -/
def Handled (users : List DeviceUser) (p : RawPunch) (t : Int)
    (s : LedgerState) : Prop :=
  (∀ u ∈ users, u.user_id ≠ p.user_id) ∨ HandledCore p t s

/-- Growth of the ledger along processing: employees are only appended, the
audit log only grows, and every interval keeps its id, employee and check-in
(only its check-out may be set). -/
def Extends (s s' : LedgerState) : Prop :=
  (∃ l, s'.employees = s.employees ++ l) ∧
  (∀ r ∈ s.zk, r ∈ s'.zk) ∧
  (∀ r ∈ s.hr, ∃ r' ∈ s'.hr,
    r'.id = r.id ∧ r'.employee_id = r.employee_id ∧ r'.check_in = r.check_in)

/-- Well-formedness of the interval table relative to the id counters `n`
(next interval id) and `m` (next employee id) and a time bound `B`: ids are
unique and fresh below `n`, employee references are below `m`, all instants
are at most `B`, and an open interval is the strict latest-by-check-in
interval of its employee. -/
def hrInv (hr : List HrAttendance) (n m : Nat) (B : Int) : Prop :=
  (hr.map (fun r => r.id)).Nodup ∧
  (∀ r ∈ hr, r.id < n) ∧
  (∀ r ∈ hr, r.employee_id < m) ∧
  (∀ r ∈ hr, r.check_in ≤ B) ∧
  (∀ r ∈ hr, ∀ co : Int, r.check_out = some co → co ≤ B) ∧
  (∀ r1 ∈ hr, ∀ r2 ∈ hr,
    r1.check_out = none → r2.employee_id = r1.employee_id → r2.id ≠ r1.id →
    r2.check_in < r1.check_in)

/-- The full reachability invariant of the ledger at time bound `B`. -/
def LedgerInv (s : LedgerState) (B : Int) : Prop :=
  hrInv s.hr s.nextHrId s.nextEmpId B ∧ ∀ e ∈ s.employees, e.id < s.nextEmpId

instance (hr : List HrAttendance) (n m : Nat) (B : Int) :
    Decidable (hrInv hr n m B) := by
  unfold hrInv; exact inferInstance

instance (s : LedgerState) (B : Int) : Decidable (LedgerInv s B) := by
  unfold LedgerInv; exact inferInstance

/-! ## Concrete fixtures used by witnesses and counterexamples -/

/-- A one-entry device user directory. -/
def usersEx : List DeviceUser := [⟨7, "alice"⟩]

/-- The employee the directory entry resolves to. -/
def empEx : Employee := ⟨1, 7, "alice"⟩

/-- A ledger holding only that employee, with no intervals and no audit log. -/
def sEmpty : LedgerState := ⟨[empEx], [], [], 2, 1⟩

/-- A ledger where the employee has one open interval checked in at 100. -/
def sOpen : LedgerState := ⟨[empEx], [], [⟨1, 1, 100, none⟩], 2, 2⟩

/-- A ledger where the employee has one closed interval (100, 200). -/
def sClosed : LedgerState := ⟨[empEx], [], [⟨1, 1, 100, some 200⟩], 2, 2⟩

/-- A ledger whose audit log holds one record of user 7 at time 100 written
by the device at address 1. -/
def sAudit : LedgerState := ⟨[empEx], [⟨1, 7, 0, 0, 100, 1⟩], [], 2, 1⟩

/-- Three same-employee check-in punches arriving out of timestamp order. -/
def punchesOutOfOrder : List RawPunch := [⟨7, 1000, 0, 0⟩, ⟨7, 10, 0, 0⟩, ⟨7, 500, 0, 0⟩]

/-- A check-out punch followed (in device order) by an earlier check-in. -/
def punchesUnsorted : List RawPunch := [⟨7, 1000, 1, 0⟩, ⟨7, 10, 0, 0⟩]

/-! ## Helper lemmas -/

theorem laStep_foldl_mem :
    ∀ (l : List HrAttendance) (acc : Option HrAttendance) (r : HrAttendance),
      l.foldl laStep acc = some r → acc = some r ∨ r ∈ l := by
  intro l
  induction l with
  | nil => intro acc r h; exact Or.inl h
  | cons x xs ih =>
    intro acc r h
    rcases ih (laStep acc x) r h with h1 | h1
    · cases acc with
      | none =>
        simp only [laStep] at h1
        obtain rfl := Option.some.inj h1
        exact Or.inr (List.mem_cons_self _ _)
      | some m =>
        simp only [laStep] at h1
        by_cases hlt : m.check_in < x.check_in
        · rw [if_pos hlt] at h1
          obtain rfl := Option.some.inj h1
          exact Or.inr (List.mem_cons_self _ _)
        · rw [if_neg hlt] at h1
          exact Or.inl h1
    · exact Or.inr (List.mem_cons_of_mem _ h1)

theorem laStep_ge (acc : Option HrAttendance) (x : HrAttendance) :
    ∃ m, laStep acc x = some m ∧ x.check_in ≤ m.check_in ∧
      ∀ a, acc = some a → a.check_in ≤ m.check_in := by
  cases acc with
  | none => exact ⟨x, rfl, le_refl _, by simp⟩
  | some a =>
    by_cases hlt : a.check_in < x.check_in
    · refine ⟨x, by simp [laStep, hlt], le_refl _, ?_⟩
      intro b hb
      cases hb
      exact le_of_lt hlt
    · refine ⟨a, by simp [laStep, hlt], le_of_not_lt hlt, ?_⟩
      intro b hb
      cases hb
      exact le_refl _

theorem laStep_foldl_ge :
    ∀ (l : List HrAttendance) (acc : Option HrAttendance) (r : HrAttendance),
      l.foldl laStep acc = some r →
      (∀ x ∈ l, x.check_in ≤ r.check_in) ∧
      (∀ a, acc = some a → a.check_in ≤ r.check_in) := by
  intro l
  induction l with
  | nil =>
    intro acc r h
    refine ⟨by simp, ?_⟩
    intro a ha
    rw [ha] at h
    cases h
    exact le_refl _
  | cons x xs ih =>
    intro acc r h
    obtain ⟨m, hm, hxm, hacc⟩ := laStep_ge acc x
    rw [List.foldl_cons, hm] at h
    obtain ⟨hxs, hm2⟩ := ih (some m) r h
    have hmr : m.check_in ≤ r.check_in := hm2 m rfl
    refine ⟨?_, ?_⟩
    · intro y hy
      rcases List.mem_cons.1 hy with hy | hy
      · rw [hy]; exact le_trans hxm hmr
      · exact hxs y hy
    · intro a ha
      exact le_trans (hacc a ha) hmr

theorem laStep_foldl_none :
    ∀ (l : List HrAttendance) (acc : Option HrAttendance),
      l.foldl laStep acc = none → acc = none ∧ l = [] := by
  intro l
  induction l with
  | nil => intro acc h; exact ⟨h, rfl⟩
  | cons x xs ih =>
    intro acc h
    obtain ⟨m, hm, -, -⟩ := laStep_ge acc x
    rw [List.foldl_cons, hm] at h
    obtain ⟨h1, -⟩ := ih (some m) h
    cases h1

theorem lastAttendance_mem {s : LedgerState} {eid : Nat} {l : HrAttendance}
    (h : lastAttendance s eid = some l) : l ∈ s.hr ∧ l.employee_id = eid := by
  unfold lastAttendance at h
  rcases laStep_foldl_mem _ _ _ h with h1 | h1
  · cases h1
  · have := List.mem_filter.1 h1
    exact ⟨this.1, by simpa using this.2⟩

theorem lastAttendance_max {s : LedgerState} {eid : Nat} {l : HrAttendance}
    (h : lastAttendance s eid = some l) :
    ∀ r ∈ s.hr, r.employee_id = eid → r.check_in ≤ l.check_in := by
  intro r hr he
  unfold lastAttendance at h
  exact (laStep_foldl_ge _ _ _ h).1 r (List.mem_filter.2 ⟨hr, by simp [he]⟩)

theorem lastAttendance_none {s : LedgerState} {eid : Nat}
    (h : lastAttendance s eid = none) :
    ∀ r ∈ s.hr, r.employee_id ≠ eid := by
  intro r hr he
  unfold lastAttendance at h
  have := (laStep_foldl_none _ _ h).2
  have hmem : r ∈ s.hr.filter (fun r => r.employee_id == eid) :=
    List.mem_filter.2 ⟨hr, by simp [he]⟩
  rw [this] at hmem
  cases hmem

theorem lastAttendance_isSome {s : LedgerState} {eid : Nat}
    {r : HrAttendance} (hr : r ∈ s.hr) (he : r.employee_id = eid) :
    ∃ l, lastAttendance s eid = some l := by
  cases h : lastAttendance s eid with
  | none => exact absurd he (lastAttendance_none h r hr)
  | some l => exact ⟨l, rfl⟩

theorem searchEmployee_mem {s : LedgerState} {uid : Nat} {e : Employee}
    (h : searchEmployee s uid = some e) :
    e ∈ s.employees ∧ e.device_id_num = uid := by
  unfold searchEmployee at h
  exact ⟨List.mem_of_find?_eq_some h, by simpa using List.find?_some h⟩

theorem eq_of_mem_of_nodup_ids {hr : List HrAttendance}
    (hn : (hr.map (fun r => r.id)).Nodup) {r1 r2 : HrAttendance}
    (h1 : r1 ∈ hr) (h2 : r2 ∈ hr) (hid : r1.id = r2.id) : r1 = r2 :=
  List.inj_on_of_nodup_map hn h1 h2 hid

theorem closeAt_mem (hid : Nat) (t : Int) {hr : List HrAttendance}
    {r : HrAttendance} (h : r ∈ hr) :
    ∃ r' ∈ closeAt hr hid t,
      r'.id = r.id ∧ r'.employee_id = r.employee_id ∧ r'.check_in = r.check_in := by
  refine ⟨if r.id == hid then { r with check_out := some t } else r,
    List.mem_map_of_mem _ h, ?_⟩
  by_cases hc : r.id == hid <;> simp [hc]

theorem extends_refl (s : LedgerState) : Extends s s :=
  ⟨⟨[], by simp⟩, fun _ hr => hr, fun r hr => ⟨r, hr, rfl, rfl, rfl⟩⟩

theorem extends_trans {s1 s2 s3 : LedgerState}
    (h12 : Extends s1 s2) (h23 : Extends s2 s3) : Extends s1 s3 := by
  obtain ⟨⟨l1, he1⟩, hz1, hh1⟩ := h12
  obtain ⟨⟨l2, he2⟩, hz2, hh2⟩ := h23
  refine ⟨⟨l1 ++ l2, by rw [he2, he1, List.append_assoc]⟩, ?_, ?_⟩
  · exact fun r hr => hz2 r (hz1 r hr)
  · intro r hr
    obtain ⟨r', hr', hi, he, hc⟩ := hh1 r hr
    obtain ⟨r'', hr'', hi2, he2x, hc2⟩ := hh2 r' hr'
    exact ⟨r'', hr'', by rw [hi2, hi], by rw [he2x, he], by rw [hc2, hc]⟩

theorem extends_append_simple (s : LedgerState) (x : HrAttendance)
    (z : ZkAttendance) (nh : Nat) :
    Extends s { s with hr := s.hr ++ [x], zk := s.zk ++ [z], nextHrId := nh } := by
  refine ⟨⟨[], by simp⟩, ?_, ?_⟩
  · exact fun r hr => List.mem_append_left _ hr
  · exact fun r hr => ⟨r, List.mem_append_left _ hr, rfl, rfl, rfl⟩

theorem extends_close_append (s : LedgerState) (hid : Nat) (t : Int)
    (x : HrAttendance) (z : ZkAttendance) (nh : Nat) :
    Extends s
      { s with hr := closeAt s.hr hid t ++ [x], zk := s.zk ++ [z], nextHrId := nh } := by
  refine ⟨⟨[], by simp⟩, ?_, ?_⟩
  · exact fun r hr => List.mem_append_left _ hr
  · intro r hr
    obtain ⟨r', hr', hi, he, hc⟩ := closeAt_mem hid t hr
    exact ⟨r', List.mem_append_left _ hr', hi, he, hc⟩

theorem extends_close_only (s : LedgerState) (hid : Nat) (t : Int)
    (z : ZkAttendance) :
    Extends s { s with hr := closeAt s.hr hid t, zk := s.zk ++ [z] } := by
  refine ⟨⟨[], by simp⟩, ?_, ?_⟩
  · exact fun r hr => List.mem_append_left _ hr
  · exact fun r hr => closeAt_mem hid t hr

theorem extends_new_employee (s : LedgerState) (emp : Employee)
    (x : HrAttendance) (z : ZkAttendance) (ne nh : Nat) :
    Extends s
      { s with employees := s.employees ++ [emp], hr := s.hr ++ [x],
               zk := s.zk ++ [z], nextEmpId := ne, nextHrId := nh } := by
  refine ⟨⟨[emp], rfl⟩, ?_, ?_⟩
  · exact fun r hr => List.mem_append_left _ hr
  · exact fun r hr => ⟨r, List.mem_append_left _ hr, rfl, rfl, rfl⟩

theorem extends_processMatchedUser (addr : Nat) (un : String) (p : RawPunch)
    (t : Int) (s : LedgerState) :
    Extends s (processMatchedUser addr un p t s) := by
  cases hse : searchEmployee s p.user_id with
  | none =>
    simp only [processMatchedUser, hse]
    exact extends_new_employee s _ _ _ _ _
  | some e =>
    cases hd : isDuplicate s p.user_id t with
    | true =>
      simp only [processMatchedUser, hse, hd, if_true]
      exact extends_refl s
    | false =>
      cases hla : lastAttendance s e.id with
      | none =>
        simp only [processMatchedUser, hse, hd, hla, Bool.false_eq_true, if_false]
        exact extends_append_simple s _ _ _
      | some last =>
        cases hco : last.check_out with
        | none =>
          by_cases h0 : p.punch = 0
          · simp only [processMatchedUser, hse, hd, hla, hco, h0,
              Bool.false_eq_true, if_false, if_true]
            exact extends_close_append s _ _ _ _ _
          · by_cases h1 : p.punch = 1
            · simp only [processMatchedUser, hse, hd, hla, hco, h0, h1,
                Bool.false_eq_true, if_false, if_true]
              exact extends_close_only s _ _ _
            · simp only [processMatchedUser, hse, hd, hla, hco, h0, h1,
                Bool.false_eq_true, if_false]
              exact extends_refl s
        | some co =>
          by_cases h0 : p.punch = 0
          · simp only [processMatchedUser, hse, hd, hla, hco, h0,
              Bool.false_eq_true, if_false, if_true]
            exact extends_append_simple s _ _ _
          · by_cases h1 : p.punch = 1
            · by_cases hbr : t - co ≤ 180
              · simp only [processMatchedUser, hse, hd, hla, hco, h0, h1, hbr,
                  Bool.false_eq_true, if_false, if_true]
                exact extends_append_simple s _ _ _
              · simp only [processMatchedUser, hse, hd, hla, hco, h0, h1, hbr,
                  Bool.false_eq_true, if_false, if_true]
                exact extends_append_simple s _ _ _
            · simp only [processMatchedUser, hse, hd, hla, hco, h0, h1,
                Bool.false_eq_true, if_false]
              exact extends_refl s

theorem processPunch_cons (addr : Nat) (tz : Int) (u : DeviceUser)
    (us : List DeviceUser) (p : RawPunch) (s : LedgerState) :
    processPunch addr tz (u :: us) p s =
      processPunch addr tz us p
        (if u.user_id == p.user_id then
          processMatchedUser addr u.name p (canonTime tz p) s
        else s) := rfl

theorem extends_processPunch (addr : Nat) (tz : Int) (users : List DeviceUser)
    (p : RawPunch) (s : LedgerState) :
    Extends s (processPunch addr tz users p s) := by
  induction users generalizing s with
  | nil => exact extends_refl s
  | cons u us ih =>
    rw [processPunch_cons]
    by_cases hm : u.user_id == p.user_id
    · rw [if_pos hm]
      exact extends_trans (extends_processMatchedUser addr u.name p _ s) (ih _)
    · rw [if_neg hm]
      exact ih s

theorem runD_cons (addr : Nat) (tz : Int) (users : List DeviceUser)
    (p : RawPunch) (ps : List RawPunch) (s : LedgerState) :
    runD addr tz users (p :: ps) s =
      runD addr tz users ps (processPunch addr tz users p s) := rfl

theorem extends_runD (addr : Nat) (tz : Int) (users : List DeviceUser)
    (ps : List RawPunch) (s : LedgerState) :
    Extends s (runD addr tz users ps s) := by
  induction ps generalizing s with
  | nil => exact extends_refl s
  | cons q qs ih =>
    rw [runD_cons]
    exact extends_trans (extends_processPunch addr tz users q s) (ih _)

theorem handledCore_extends {p : RawPunch} {t : Int} {s s' : LedgerState}
    (hx : Extends s s') (h : HandledCore p t s) : HandledCore p t s' := by
  obtain ⟨e, he, hcase⟩ := h
  obtain ⟨⟨l, hemp⟩, hzk, hhr⟩ := hx
  refine ⟨e, ?_, ?_⟩
  · unfold searchEmployee at he ⊢
    rw [hemp, List.find?_append, he]
    rfl
  · rcases hcase with hdup | ⟨h0, h1, r, hr, hre⟩
    · left
      unfold isDuplicate at hdup ⊢
      rw [List.any_eq_true] at hdup ⊢
      obtain ⟨x, hx1, hx2⟩ := hdup
      exact ⟨x, hzk x hx1, hx2⟩
    · right
      obtain ⟨r', hr', -, he', -⟩ := hhr r hr
      exact ⟨h0, h1, r', hr', by rw [he', hre]⟩

theorem noopCore {addr : Nat} {un : String} {p : RawPunch} {t : Int}
    {s : LedgerState} (h : HandledCore p t s) :
    processMatchedUser addr un p t s = s := by
  obtain ⟨e, he, hcase⟩ := h
  cases hdup : isDuplicate s p.user_id t with
  | true => simp [processMatchedUser, he, hdup]
  | false =>
    rcases hcase with hdup2 | ⟨h0, h1, r, hr, hre⟩
    · rw [hdup] at hdup2; cases hdup2
    · obtain ⟨l, hl⟩ := lastAttendance_isSome hr hre
      cases hco : l.check_out with
      | none => simp [processMatchedUser, he, hdup, hl, hco, h0, h1]
      | some co => simp [processMatchedUser, he, hdup, hl, hco, h0, h1]

theorem handledCore_processMatchedUser (addr : Nat) (un : String)
    (p : RawPunch) (t : Int) (s : LedgerState) :
    HandledCore p t (processMatchedUser addr un p t s) := by
  cases hse : searchEmployee s p.user_id with
  | none =>
    simp only [processMatchedUser, hse]
    refine ⟨⟨s.nextEmpId, p.user_id, un⟩, ?_, Or.inl ?_⟩
    · unfold searchEmployee at hse ⊢
      simp only [List.find?_append, hse, Option.none_or]
      simp [List.find?]
    · simp [isDuplicate, mkZk]
  | some e =>
    cases hd : isDuplicate s p.user_id t with
    | true =>
      simp only [processMatchedUser, hse, hd, if_true]
      exact ⟨e, hse, Or.inl hd⟩
    | false =>
      cases hla : lastAttendance s e.id with
      | none =>
        simp only [processMatchedUser, hse, hd, hla, Bool.false_eq_true, if_false]
        refine ⟨e, by simp [searchEmployee] at hse ⊢; exact hse, Or.inl ?_⟩
        simp [isDuplicate, mkZk]
      | some last =>
        have hmem := lastAttendance_mem hla
        cases hco : last.check_out with
        | none =>
          by_cases h0 : p.punch = 0
          · simp only [processMatchedUser, hse, hd, hla, hco, h0,
              Bool.false_eq_true, if_false, if_true]
            refine ⟨e, by simp [searchEmployee] at hse ⊢; exact hse, Or.inl ?_⟩
            simp [isDuplicate, mkZk]
          · by_cases h1 : p.punch = 1
            · simp only [processMatchedUser, hse, hd, hla, hco, h0, h1,
                Bool.false_eq_true, if_false, if_true]
              refine ⟨e, by simp [searchEmployee] at hse ⊢; exact hse, Or.inl ?_⟩
              simp [isDuplicate, mkZk]
            · simp only [processMatchedUser, hse, hd, hla, hco, h0, h1,
                Bool.false_eq_true, if_false]
              exact ⟨e, hse, Or.inr ⟨h0, h1, last, hmem.1, hmem.2⟩⟩
        | some co =>
          by_cases h0 : p.punch = 0
          · simp only [processMatchedUser, hse, hd, hla, hco, h0,
              Bool.false_eq_true, if_false, if_true]
            refine ⟨e, by simp [searchEmployee] at hse ⊢; exact hse, Or.inl ?_⟩
            simp [isDuplicate, mkZk]
          · by_cases h1 : p.punch = 1
            · by_cases hbr : t - co ≤ 180
              · simp only [processMatchedUser, hse, hd, hla, hco, h0, h1, hbr,
                  Bool.false_eq_true, if_false, if_true]
                refine ⟨e, by simp [searchEmployee] at hse ⊢; exact hse, Or.inl ?_⟩
                simp [isDuplicate, mkZk]
              · simp only [processMatchedUser, hse, hd, hla, hco, h0, h1, hbr,
                  Bool.false_eq_true, if_false, if_true]
                refine ⟨e, by simp [searchEmployee] at hse ⊢; exact hse, Or.inl ?_⟩
                simp [isDuplicate, mkZk]
            · simp only [processMatchedUser, hse, hd, hla, hco, h0, h1,
                Bool.false_eq_true, if_false]
              exact ⟨e, hse, Or.inr ⟨h0, h1, last, hmem.1, hmem.2⟩⟩

theorem processPunch_noop_of_core {addr : Nat} {tz : Int}
    {users : List DeviceUser} {p : RawPunch} {s : LedgerState}
    (h : HandledCore p (canonTime tz p) s) :
    processPunch addr tz users p s = s := by
  induction users with
  | nil => rfl
  | cons u us ih =>
    rw [processPunch_cons]
    by_cases hm : u.user_id == p.user_id
    · rw [if_pos hm, noopCore h]
      exact ih
    · rw [if_neg hm]
      exact ih

theorem processPunch_noop_of_nomatch {addr : Nat} {tz : Int}
    {users : List DeviceUser} {p : RawPunch} {s : LedgerState}
    (h : ∀ u ∈ users, u.user_id ≠ p.user_id) :
    processPunch addr tz users p s = s := by
  induction users with
  | nil => rfl
  | cons u us ih =>
    rw [processPunch_cons]
    have hm : ¬(u.user_id == p.user_id) := by
      simpa using h u (List.mem_cons_self _ _)
    rw [if_neg hm]
    exact ih fun v hv => h v (List.mem_cons_of_mem _ hv)

theorem processPunch_noop {addr : Nat} {tz : Int} {users : List DeviceUser}
    {p : RawPunch} {s : LedgerState}
    (h : Handled users p (canonTime tz p) s) :
    processPunch addr tz users p s = s := by
  rcases h with h | h
  · exact processPunch_noop_of_nomatch h
  · exact processPunch_noop_of_core h

theorem processPunch_handled (addr : Nat) (tz : Int) (users : List DeviceUser)
    (p : RawPunch) (s : LedgerState) :
    Handled users p (canonTime tz p) (processPunch addr tz users p s) := by
  induction users generalizing s with
  | nil => exact Or.inl (by simp)
  | cons u us ih =>
    rw [processPunch_cons]
    by_cases hm : u.user_id == p.user_id
    · rw [if_pos hm]
      have hcore := handledCore_processMatchedUser addr u.name p (canonTime tz p) s
      right
      rw [processPunch_noop_of_core hcore]
      exact hcore
    · rw [if_neg hm]
      rcases ih s with hall | hcore
      · left
        intro v hv
        rcases List.mem_cons.1 hv with rfl | hv
        · simpa using hm
        · exact hall v hv
      · exact Or.inr hcore

theorem handled_extends {users : List DeviceUser} {p : RawPunch} {t : Int}
    {s s' : LedgerState} (hx : Extends s s') (h : Handled users p t s) :
    Handled users p t s' := by
  rcases h with h | h
  · exact Or.inl h
  · exact Or.inr (handledCore_extends hx h)

theorem runD_handled (addr : Nat) (tz : Int) (users : List DeviceUser)
    (ps : List RawPunch) (s : LedgerState) :
    ∀ p ∈ ps, Handled users p (canonTime tz p) (runD addr tz users ps s) := by
  induction ps generalizing s with
  | nil => intro p hp; cases hp
  | cons q qs ih =>
    intro p hp
    rw [runD_cons]
    rcases List.mem_cons.1 hp with rfl | hp
    · exact handled_extends (extends_runD addr tz users qs _)
        (processPunch_handled addr tz users p s)
    · exact ih _ p hp

theorem runD_noop_of_handled {addr : Nat} {tz : Int}
    {users : List DeviceUser} {ps : List RawPunch} {s : LedgerState}
    (h : ∀ p ∈ ps, Handled users p (canonTime tz p) s) :
    runD addr tz users ps s = s := by
  induction ps with
  | nil => rfl
  | cons q qs ih =>
    rw [runD_cons, processPunch_noop (h q (List.mem_cons_self _ _))]
    exact ih fun p hp => h p (List.mem_cons_of_mem _ hp)

theorem closeAt_map_id (hr : List HrAttendance) (hid : Nat) (t : Int) :
    (closeAt hr hid t).map (fun r => r.id) = hr.map (fun r => r.id) := by
  unfold closeAt
  rw [List.map_map]
  apply List.map_congr_left
  intro r _
  simp only [Function.comp_apply]
  by_cases hc : r.id == hid
  · rw [if_pos hc]
  · rw [if_neg hc]

theorem closeAt_mem_rev {hr : List HrAttendance} {hid : Nat} {t : Int}
    {r' : HrAttendance} (h : r' ∈ closeAt hr hid t) :
    ∃ r0 ∈ hr, r'.id = r0.id ∧ r'.employee_id = r0.employee_id ∧
      r'.check_in = r0.check_in ∧
      (r'.check_out = some t ∨ r'.check_out = r0.check_out) := by
  obtain ⟨r0, hr0, rfl⟩ := List.mem_map.1 h
  by_cases hc : r0.id == hid
  · rw [if_pos hc]
    exact ⟨r0, hr0, rfl, rfl, rfl, Or.inl rfl⟩
  · rw [if_neg hc]
    exact ⟨r0, hr0, rfl, rfl, rfl, Or.inr rfl⟩

theorem closeAt_open_rev {hr : List HrAttendance} {hid : Nat} {t : Int}
    {r' : HrAttendance} (h : r' ∈ closeAt hr hid t)
    (ho : r'.check_out = none) : r' ∈ hr ∧ r'.id ≠ hid := by
  obtain ⟨r0, hr0, rfl⟩ := List.mem_map.1 h
  by_cases hc : r0.id == hid
  · rw [if_pos hc] at ho ⊢
    cases ho
  · rw [if_neg hc] at ho ⊢
    exact ⟨hr0, by simpa using hc⟩

theorem hrInv_mono {hr : List HrAttendance} {n m : Nat} {B : Int}
    (h : hrInv hr n m B) {m' : Nat} {B' : Int} (hm : m ≤ m') (hB : B ≤ B') :
    hrInv hr n m' B' := by
  obtain ⟨h1, h2, h3, h4, h5, h6⟩ := h
  exact ⟨h1, h2, fun r hr => lt_of_lt_of_le (h3 r hr) hm,
    fun r hr => le_trans (h4 r hr) hB,
    fun r hr co hc => le_trans (h5 r hr co hc) hB, h6⟩

theorem hrInv_close {hr : List HrAttendance} {n m : Nat} {B : Int}
    (h : hrInv hr n m B) (hid : Nat) {t : Int} (ht : B ≤ t) :
    hrInv (closeAt hr hid t) n m t := by
  obtain ⟨h1, h2, h3, h4, h5, h6⟩ := h
  refine ⟨?_, ?_, ?_, ?_, ?_, ?_⟩
  · rw [closeAt_map_id]; exact h1
  · intro r' hr'
    obtain ⟨r0, hr0, hi, -, -, -⟩ := closeAt_mem_rev hr'
    rw [hi]; exact h2 r0 hr0
  · intro r' hr'
    obtain ⟨r0, hr0, -, he, -, -⟩ := closeAt_mem_rev hr'
    rw [he]; exact h3 r0 hr0
  · intro r' hr'
    obtain ⟨r0, hr0, -, -, hc, -⟩ := closeAt_mem_rev hr'
    rw [hc]; exact le_trans (h4 r0 hr0) ht
  · intro r' hr' co hc
    obtain ⟨r0, hr0, -, -, -, hco⟩ := closeAt_mem_rev hr'
    rcases hco with hco | hco
    · rw [hco] at hc
      cases hc
      exact le_refl t
    · rw [hco] at hc
      exact le_trans (h5 r0 hr0 co hc) ht
  · intro r1 hr1 r2 hr2 ho1 he12 hne
    obtain ⟨hr1m, -⟩ := closeAt_open_rev hr1 ho1
    obtain ⟨r20, hr20, hi2, he2, hc2, -⟩ := closeAt_mem_rev hr2
    rw [hc2]
    exact h6 r1 hr1m r20 hr20 ho1 (by rw [← he2, he12]) (by rw [← hi2]; exact hne)

theorem hrInv_append {hr : List HrAttendance} {n m : Nat} {B : Int}
    (h : hrInv hr n m B) {x : HrAttendance} {m' : Nat} {t : Int}
    (hm : m ≤ m') (hBt : B ≤ t)
    (hxid : x.id = n) (hxe : x.employee_id < m')
    (hci : x.check_in ≤ t) (hcox : ∀ co : Int, x.check_out = some co → co ≤ t)
    (hNoOpen : ∀ r ∈ hr, r.employee_id = x.employee_id → r.check_out ≠ none)
    (hciLt : x.check_out = none →
      ∀ r ∈ hr, r.employee_id = x.employee_id → r.check_in < x.check_in) :
    hrInv (hr ++ [x]) (n + 1) m' t := by
  obtain ⟨h1, h2, h3, h4, h5, h6⟩ := h
  refine ⟨?_, ?_, ?_, ?_, ?_, ?_⟩
  · rw [List.map_append]
    rw [List.nodup_append]
    refine ⟨h1, List.nodup_singleton _, ?_⟩
    intro i hi hix
    simp only [List.map_cons, List.map_nil, List.mem_singleton] at hix
    obtain ⟨r0, hr0, rfl⟩ := List.mem_map.1 hi
    rw [hxid] at hix
    exact absurd hix (Nat.ne_of_lt (h2 r0 hr0))
  · intro r hr
    rcases List.mem_append.1 hr with hr | hr
    · exact Nat.lt_succ_of_lt (h2 r hr)
    · rw [List.mem_singleton.1 hr, hxid]
      exact Nat.lt_succ_self n
  · intro r hr
    rcases List.mem_append.1 hr with hr | hr
    · exact lt_of_lt_of_le (h3 r hr) hm
    · rw [List.mem_singleton.1 hr]
      exact hxe
  · intro r hr
    rcases List.mem_append.1 hr with hr | hr
    · exact le_trans (h4 r hr) hBt
    · rw [List.mem_singleton.1 hr]
      exact hci
  · intro r hr co hc
    rcases List.mem_append.1 hr with hr | hr
    · exact le_trans (h5 r hr co hc) hBt
    · rw [List.mem_singleton.1 hr] at hc
      exact hcox co hc
  · intro r1 hr1 r2 hr2 ho1 he12 hne
    rcases List.mem_append.1 hr1 with hr1 | hr1 <;>
      rcases List.mem_append.1 hr2 with hr2 | hr2
    · exact h6 r1 hr1 r2 hr2 ho1 he12 hne
    · rw [List.mem_singleton.1 hr2] at he12 hne ⊢
      exact absurd ho1 (hNoOpen r1 hr1 he12.symm)
    · rw [List.mem_singleton.1 hr1] at ho1 he12 hne ⊢
      exact hciLt ho1 r2 hr2 he12
    · rw [List.mem_singleton.1 hr1, List.mem_singleton.1 hr2] at hne
      exact absurd rfl hne

theorem ledgerInv_processMatchedUser {s : LedgerState} {B t : Int}
    (addr : Nat) (un : String) (p : RawPunch)
    (h : LedgerInv s B) (ht : B < t) :
    LedgerInv (processMatchedUser addr un p t s) t := by
  obtain ⟨hinv, hemps⟩ := h
  cases hse : searchEmployee s p.user_id with
  | none =>
    simp only [processMatchedUser, hse]
    refine ⟨?_, ?_⟩
    · refine hrInv_append hinv (Nat.le_succ _) (le_of_lt ht) rfl
        (Nat.lt_succ_self _) (le_refl t) ?_ ?_ ?_
      · intro co hc; cases hc
      · intro r hr hre
        exact absurd hre (Nat.ne_of_lt (hinv.2.2.1 r hr))
      · intro _ r hr hre
        exact absurd hre (Nat.ne_of_lt (hinv.2.2.1 r hr))
    · intro e he
      rcases List.mem_append.1 he with he | he
      · exact Nat.lt_succ_of_lt (hemps e he)
      · rw [List.mem_singleton.1 he]
        exact Nat.lt_succ_self _
  | some e =>
    have heid : e.id < s.nextEmpId := hemps e (searchEmployee_mem hse).1
    cases hd : isDuplicate s p.user_id t with
    | true =>
      simp only [processMatchedUser, hse, hd, if_true]
      exact ⟨hrInv_mono hinv (le_refl _) (le_of_lt ht), hemps⟩
    | false =>
      cases hla : lastAttendance s e.id with
      | none =>
        simp only [processMatchedUser, hse, hd, hla, Bool.false_eq_true, if_false]
        have hnone := lastAttendance_none hla
        refine ⟨hrInv_append hinv (le_refl _) (le_of_lt ht) rfl heid
          (le_refl t) ?_ ?_ ?_, hemps⟩
        · intro co hc; cases hc
        · intro r hr hre; exact absurd hre (hnone r hr)
        · intro _ r hr hre; exact absurd hre (hnone r hr)
      | some last =>
        have hlmem := lastAttendance_mem hla
        have hmax := lastAttendance_max hla
        cases hco : last.check_out with
        | none =>
          have huniq : ∀ r ∈ s.hr, r.employee_id = e.id → r.check_out = none →
              r.id = last.id := by
            intro r hr hre hro
            by_contra hne
            have h1 := hinv.2.2.2.2.2 last hlmem.1 r hr hco
              (hre.trans hlmem.2.symm) hne
            have h2 := hinv.2.2.2.2.2 r hr last hlmem.1 hro
              (hlmem.2.trans hre.symm) (fun hh => hne hh.symm)
            exact absurd h1 (not_lt_of_gt h2)
          by_cases h0 : p.punch = 0
          · simp only [processMatchedUser, hse, hd, hla, hco, h0,
              Bool.false_eq_true, if_false, if_true]
            have hclosed := hrInv_close hinv last.id (le_of_lt ht)
            refine ⟨hrInv_append hclosed (le_refl _) (le_refl t) rfl heid
              (le_refl t) ?_ ?_ ?_, hemps⟩
            · intro co hc; cases hc
            · intro r' hr' hre hro
              obtain ⟨hr'mem, hr'ne⟩ := closeAt_open_rev hr' hro
              exact hr'ne (huniq r' hr'mem hre hro)
            · intro _ r' hr' hre
              obtain ⟨r0, hr0, -, -, hc0, -⟩ := closeAt_mem_rev hr'
              rw [hc0]
              exact lt_of_le_of_lt (hinv.2.2.2.1 r0 hr0) ht
          · by_cases h1 : p.punch = 1
            · simp only [processMatchedUser, hse, hd, hla, hco, h0, h1,
                Bool.false_eq_true, if_false, if_true]
              exact ⟨hrInv_close hinv last.id (le_of_lt ht), hemps⟩
            · simp only [processMatchedUser, hse, hd, hla, hco, h0, h1,
                Bool.false_eq_true, if_false]
              exact ⟨hrInv_mono hinv (le_refl _) (le_of_lt ht), hemps⟩
        | some co =>
          have hNoOpenS : ∀ r ∈ s.hr, r.employee_id = e.id →
              r.check_out ≠ none := by
            intro r hr hre hro
            by_cases hne : last.id = r.id
            · have heq : last = r := eq_of_mem_of_nodup_ids hinv.1 hlmem.1 hr hne
              rw [heq, hro] at hco
              cases hco
            · have hlt := hinv.2.2.2.2.2 r hr last hlmem.1 hro
                (hlmem.2.trans hre.symm) hne
              exact absurd (hmax r hr hre) (not_le_of_gt hlt)
          by_cases h0 : p.punch = 0
          · simp only [processMatchedUser, hse, hd, hla, hco, h0,
              Bool.false_eq_true, if_false, if_true]
            refine ⟨hrInv_append hinv (le_refl _) (le_of_lt ht) rfl heid
              (le_refl t) ?_ hNoOpenS ?_, hemps⟩
            · intro co2 hc; cases hc
            · intro _ r hr hre
              exact lt_of_le_of_lt (hinv.2.2.2.1 r hr) ht
          · by_cases h1 : p.punch = 1
            · have hcoB : co ≤ B := hinv.2.2.2.2.1 last hlmem.1 co hco
              by_cases hbr : t - co ≤ 180
              · simp only [processMatchedUser, hse, hd, hla, hco, h0, h1, hbr,
                  Bool.false_eq_true, if_false, if_true]
                refine ⟨hrInv_append hinv (le_refl _) (le_of_lt ht) rfl heid
                  (le_trans hcoB (le_of_lt ht)) ?_ hNoOpenS ?_, hemps⟩
                · intro co2 hc
                  cases hc
                  exact le_refl t
                · intro hnone; cases hnone
              · simp only [processMatchedUser, hse, hd, hla, hco, h0, h1, hbr,
                  Bool.false_eq_true, if_false, if_true]
                refine ⟨hrInv_append hinv (le_refl _) (le_of_lt ht) rfl heid
                  (le_refl t) ?_ hNoOpenS ?_, hemps⟩
                · intro co2 hc; cases hc
                · intro _ r hr hre
                  exact lt_of_le_of_lt (hinv.2.2.2.1 r hr) ht
            · simp only [processMatchedUser, hse, hd, hla, hco, h0, h1,
                Bool.false_eq_true, if_false]
              exact ⟨hrInv_mono hinv (le_refl _) (le_of_lt ht), hemps⟩

theorem ledgerInv_processPunch {addr : Nat} {tz : Int}
    {users : List DeviceUser} {p : RawPunch} {s : LedgerState} {B : Int}
    (h : LedgerInv s B) (ht : B < canonTime tz p) :
    LedgerInv (processPunch addr tz users p s) (canonTime tz p) := by
  induction users with
  | nil =>
    exact ⟨hrInv_mono h.1 (le_refl _) (le_of_lt ht), h.2⟩
  | cons u us ih =>
    rw [processPunch_cons]
    by_cases hm : u.user_id == p.user_id
    · rw [if_pos hm]
      rw [processPunch_noop_of_core
        (handledCore_processMatchedUser addr u.name p (canonTime tz p) s)]
      exact ledgerInv_processMatchedUser addr u.name p h ht
    · rw [if_neg hm]
      exact ih

theorem ledgerInv_runD {addr : Nat} {tz : Int} {users : List DeviceUser}
    {ps : List RawPunch} {s : LedgerState} {B : Int}
    (h : LedgerInv s B) (hGt : ∀ p ∈ ps, B < canonTime tz p)
    (hSorted : ps.Pairwise (fun p q => canonTime tz p < canonTime tz q)) :
    ∃ B', B ≤ B' ∧ LedgerInv (runD addr tz users ps s) B' := by
  induction ps generalizing s B with
  | nil => exact ⟨B, le_refl B, h⟩
  | cons q qs ih =>
    rw [runD_cons]
    have hq := hGt q (List.mem_cons_self _ _)
    have h1 := @ledgerInv_processPunch addr tz users q s B h hq
    obtain ⟨hqs, hqs2⟩ := List.pairwise_cons.1 hSorted
    obtain ⟨B', hB', hInvR⟩ := ih h1 hqs hqs2
    exact ⟨B', le_trans (le_of_lt hq) hB', hInvR⟩

theorem atMostOneOpen_of_ledgerInv {s : LedgerState} {B : Int}
    (h : LedgerInv s B) (eid : Nat) : atMostOneOpen s eid := by
  intro r1 h1 r2 h2 he1 he2 ho1 ho2
  by_contra hne
  have ha := h.1.2.2.2.2.2 r1 h1 r2 h2 ho1 (he2.trans he1.symm)
    (fun hh => hne (hh.symm))
  have hb := h.1.2.2.2.2.2 r2 h2 r1 h1 ho2 (he1.trans he2.symm) hne
  exact absurd ha (not_lt_of_gt hb)

/-! ## Theorems for the claims -/

/-- C1 counterexample: three check-in punches of one employee arriving out
of timestamp order (1000, then 10, then 500) leave the employee with two
open intervals, so invariant I2 does not hold for all punch orderings the
code may receive. -/
theorem C1_counterexample_two_open_intervals :
    ¬ atMostOneOpen (runD 0 0 usersEx punchesOutOfOrder sEmpty) 1 := by
  decide

/-- C1 amended: starting from a well-formed ledger whose instants lie below
every incoming canonical punch time, and with the punch batch in strictly
ascending canonical-time order, the invariant holds after each processed
punch (`ps₁` is an arbitrary prefix of the batch): every employee has at most
one open interval. -/
theorem C1_amended_ascending_preserves_single_open
    (addr : Nat) (tz : Int) (users : List DeviceUser)
    (ps₁ ps₂ : List RawPunch) (s : LedgerState) (B : Int) (eid : Nat)
    (hInv : LedgerInv s B)
    (hGt : ∀ p ∈ ps₁ ++ ps₂, B < canonTime tz p)
    (hSorted : (ps₁ ++ ps₂).Pairwise
      (fun p q => canonTime tz p < canonTime tz q)) :
    atMostOneOpen (runD addr tz users ps₁ s) eid := by
  have hGt1 : ∀ p ∈ ps₁, B < canonTime tz p :=
    fun p hp => hGt p (List.mem_append_left _ hp)
  have hS1 := hSorted.sublist (List.sublist_append_left ps₁ ps₂)
  obtain ⟨B', -, hInvR⟩ := ledgerInv_runD hInv hGt1 hS1
  exact atMostOneOpen_of_ledgerInv hInvR eid

/-- C1 witness: the amended statement on a concrete ascending two-punch
batch (the conclusion covers its one-punch prefix as well by taking
`ps₁ = [first]`). -/
theorem C1_witness :
    atMostOneOpen (runD 0 0 usersEx [⟨7, 10, 0, 0⟩, ⟨7, 20, 0, 0⟩] sEmpty) 1 :=
  C1_amended_ascending_preserves_single_open 0 0 usersEx
    [⟨7, 10, 0, 0⟩, ⟨7, 20, 0, 0⟩] [] sEmpty 0 1 (by decide) (by decide)
    (by decide)

/-- C2: for a non-duplicate check-out punch (code 1) at instant `t` when the
most recent interval of the resolved employee is closed with check-out `co`,
the reconciler creates the interval `(co, t)` when `t - co ≤ 180` seconds and
an open interval at `t` otherwise (and in both cases logs the raw punch). -/
theorem C2_checkout_after_closed_bridges_within_180s
    (addr : Nat) (un : String) (p : RawPunch) (t : Int) (s : LedgerState)
    (e : Employee) (last : HrAttendance) (co : Int)
    (he : searchEmployee s p.user_id = some e)
    (hd : isDuplicate s p.user_id t = false)
    (hl : lastAttendance s e.id = some last)
    (hco : last.check_out = some co)
    (hp : p.punch = 1) :
    processMatchedUser addr un p t s =
      if t - co ≤ 180 then
        { s with
          hr := s.hr ++ [⟨s.nextHrId, e.id, co, some t⟩]
          zk := s.zk ++ [mkZk e p t addr]
          nextHrId := s.nextHrId + 1 }
      else
        { s with
          hr := s.hr ++ [⟨s.nextHrId, e.id, t, none⟩]
          zk := s.zk ++ [mkZk e p t addr]
          nextHrId := s.nextHrId + 1 } := by
  simp [processMatchedUser, he, hd, hl, hco, hp]

/-- C2 witness: concrete instances of both branches of the bridge rule. -/
theorem C2_witness :
    processMatchedUser 0 "alice" ⟨7, 300, 1, 0⟩ 300 sClosed =
      { sClosed with
        hr := sClosed.hr ++ [⟨2, 1, 200, some 300⟩]
        zk := sClosed.zk ++ [mkZk empEx ⟨7, 300, 1, 0⟩ 300 0]
        nextHrId := 3 } ∧
    processMatchedUser 0 "alice" ⟨7, 500, 1, 0⟩ 500 sClosed =
      { sClosed with
        hr := sClosed.hr ++ [⟨2, 1, 500, none⟩]
        zk := sClosed.zk ++ [mkZk empEx ⟨7, 500, 1, 0⟩ 500 0]
        nextHrId := 3 } := by
  constructor
  · have h := C2_checkout_after_closed_bridges_within_180s 0 "alice" ⟨7, 300, 1, 0⟩
      300 sClosed empEx ⟨1, 1, 100, some 200⟩ 200 (by decide) (by decide)
      (by decide) (by decide) (by decide)
    simpa using h
  · have h := C2_checkout_after_closed_bridges_within_180s 0 "alice" ⟨7, 500, 1, 0⟩
      500 sClosed empEx ⟨1, 1, 100, some 200⟩ 200 (by decide) (by decide)
      (by decide) (by decide) (by decide)
    simpa using h

/-- C3 counterexample: with a prior interval present, a punch of code 4
(claimed to be a check-in intent) and a punch of code 7 (claimed to still be
written to the audit log) both leave the ledger fully unchanged: no interval
mutation, and no audit record is written either. -/
theorem C3_counterexample_code4_skipped_and_unlogged :
    processMatchedUser 0 "alice" ⟨7, 200, 4, 0⟩ 200 sOpen = sOpen ∧
    processMatchedUser 0 "alice" ⟨7, 300, 7, 0⟩ 300 sOpen = sOpen := by
  decide

/-- C3 amended: the code maps only code 0 to check-in and code 1 to
check-out.  For every other code (4 and 5 included), when the employee has a
most recent interval the punch is skipped entirely — no interval mutation and
no audit-log write; when the employee has no interval at all, the punch is
treated as a check-in and logged. -/
theorem C3_amended_other_codes
    (addr : Nat) (un : String) (p : RawPunch) (t : Int) (s : LedgerState)
    (e : Employee)
    (he : searchEmployee s p.user_id = some e)
    (hd : isDuplicate s p.user_id t = false)
    (h0 : p.punch ≠ 0) (h1 : p.punch ≠ 1) :
    (∀ last, lastAttendance s e.id = some last →
      processMatchedUser addr un p t s = s) ∧
    (lastAttendance s e.id = none →
      processMatchedUser addr un p t s =
        { s with
          hr := s.hr ++ [⟨s.nextHrId, e.id, t, none⟩]
          zk := s.zk ++ [mkZk e p t addr]
          nextHrId := s.nextHrId + 1 }) := by
  constructor
  · intro last hl
    cases hco : last.check_out with
    | none => simp [processMatchedUser, he, hd, hl, hco, h0, h1]
    | some co => simp [processMatchedUser, he, hd, hl, hco, h0, h1]
  · intro hl
    simp [processMatchedUser, he, hd, hl]

/-- C3 witness: a code-5 punch is skipped when an interval exists and
becomes a logged check-in when none exists. -/
theorem C3_witness :
    processMatchedUser 0 "alice" ⟨7, 400, 5, 0⟩ 400 sOpen = sOpen ∧
    processMatchedUser 0 "alice" ⟨7, 400, 5, 0⟩ 400 sEmpty =
      { sEmpty with
        hr := [⟨1, 1, 400, none⟩]
        zk := [mkZk empEx ⟨7, 400, 5, 0⟩ 400 0]
        nextHrId := 2 } := by
  constructor
  · exact (C3_amended_other_codes 0 "alice" ⟨7, 400, 5, 0⟩ 400 sOpen empEx
      (by decide) (by decide) (by decide) (by decide)).1
      ⟨1, 1, 100, none⟩ (by decide)
  · have h := (C3_amended_other_codes 0 "alice" ⟨7, 400, 5, 0⟩ 400 sEmpty empEx
      (by decide) (by decide) (by decide) (by decide)).2 (by decide)
    simpa [sEmpty] using h

/-- C4 counterexample: the audit log holds a record of user 7 at time 100
written by the device at address 1; for an incoming punch of user 7 at time
100 from the device at address 2 the filter of the source answers true, while
a filter keyed on the full (user id, timestamp, device) triple — which is
what the claim states — answers false. -/
theorem C4_counterexample_pair_not_triple :
    isDuplicate sAudit 7 100 = true ∧
    isDuplicateSpecTriple sAudit 7 100 2 = false := by
  decide

/-- C4 amended: the duplicate filter answers true exactly when an audit
record with the same (device user id, canonical timestamp) pair exists,
regardless of source device; and in the resolved-employee path a duplicate
punch leaves the ledger completely unchanged. -/
theorem C4_amended_duplicate_pair_filter
    (s : LedgerState) (uid : Nat) (t : Int) :
    (isDuplicate s uid t = true ↔
      ∃ r ∈ s.zk, r.device_id_num = uid ∧ r.punching_time = t) ∧
    (∀ (addr : Nat) (un : String) (p : RawPunch),
      p.user_id = uid →
      (searchEmployee s uid).isSome →
      isDuplicate s uid t = true →
      processMatchedUser addr un p t s = s) := by
  constructor
  · simp [isDuplicate, List.any_eq_true]
  · intro addr un p hu hs hdup
    subst hu
    rcases Option.isSome_iff_exists.1 hs with ⟨e, he⟩
    simp [processMatchedUser, he, hdup]

/-- C4 witness: the filter answers true on the pair of the stored record,
and processing that duplicate punch is a no-op. -/
theorem C4_witness :
    isDuplicate sAudit 7 100 = true ∧
    processMatchedUser 0 "alice" ⟨7, 100, 0, 0⟩ 100 sAudit = sAudit := by
  have h := C4_amended_duplicate_pair_filter sAudit 7 100
  refine ⟨h.1.2 ⟨⟨1, 7, 0, 0, 100, 1⟩, by decide, by decide, by decide⟩, ?_⟩
  exact h.2 0 "alice" ⟨7, 100, 0, 0⟩ (by decide) (by decide)
    (h.1.2 ⟨⟨1, 7, 0, 0, 100, 1⟩, by decide, by decide, by decide⟩)

/-- C5: running the download loop a second time over the same device punch
list, starting from the state produced by the first run, leaves the ledger
exactly as it was — in particular zero new RawPunch (audit) records and zero
new AttendanceInterval records are created. -/
theorem C5_second_run_is_noop (addr : Nat) (tz : Int)
    (users : List DeviceUser) (punches : List RawPunch) (s : LedgerState) :
    runD addr tz users punches (runD addr tz users punches s) =
      runD addr tz users punches s :=
  runD_noop_of_handled (runD_handled addr tz users punches s)

/-- C6: for a non-duplicate punch at instant `t` when the most recent
interval of the resolved employee is open — a check-in punch (code 0) closes
the interval at `t` and opens a new interval at `t`; a check-out punch
(code 1) only closes the interval at `t`. -/
theorem C6_open_interval_transitions
    (addr : Nat) (un : String) (p : RawPunch) (t : Int) (s : LedgerState)
    (e : Employee) (last : HrAttendance)
    (he : searchEmployee s p.user_id = some e)
    (hd : isDuplicate s p.user_id t = false)
    (hl : lastAttendance s e.id = some last)
    (hco : last.check_out = none) :
    (p.punch = 0 →
      processMatchedUser addr un p t s =
        { s with
          hr := closeAt s.hr last.id t ++ [⟨s.nextHrId, e.id, t, none⟩]
          zk := s.zk ++ [mkZk e p t addr]
          nextHrId := s.nextHrId + 1 }) ∧
    (p.punch = 1 →
      processMatchedUser addr un p t s =
        { s with
          hr := closeAt s.hr last.id t
          zk := s.zk ++ [mkZk e p t addr] }) := by
  constructor <;> intro hp <;> simp [processMatchedUser, he, hd, hl, hco, hp]

/-- C6 witness: both transitions of the open-interval state at concrete
inputs. -/
theorem C6_witness :
    processMatchedUser 0 "alice" ⟨7, 250, 0, 0⟩ 250 sOpen =
      { sOpen with
        hr := [⟨1, 1, 100, some 250⟩, ⟨2, 1, 250, none⟩]
        zk := [mkZk empEx ⟨7, 250, 0, 0⟩ 250 0]
        nextHrId := 3 } ∧
    processMatchedUser 0 "alice" ⟨7, 250, 1, 0⟩ 250 sOpen =
      { sOpen with
        hr := [⟨1, 1, 100, some 250⟩]
        zk := [mkZk empEx ⟨7, 250, 1, 0⟩ 250 0] } := by
  constructor
  · have h := (C6_open_interval_transitions 0 "alice" ⟨7, 250, 0, 0⟩ 250 sOpen
      empEx ⟨1, 1, 100, none⟩ (by decide) (by decide) (by decide) (by decide)).1
      (by decide)
    simpa [sOpen, closeAt] using h
  · have h := (C6_open_interval_transitions 0 "alice" ⟨7, 250, 1, 0⟩ 250 sOpen
      empEx ⟨1, 1, 100, none⟩ (by decide) (by decide) (by decide) (by decide)).2
      (by decide)
    simpa [sOpen, closeAt] using h

/-- C7 counterexample: on a device list whose punches are out of timestamp
order, the download loop produces a different ledger than it would on the
timestamp-sorted list, so punches are not processed in ascending timestamp
order. -/
theorem C7_counterexample_unsorted_processing :
    runD 0 0 usersEx punchesUnsorted sEmpty ≠
      runD 0 0 usersEx (sortByTime 0 punchesUnsorted) sEmpty := by
  decide

/-- C7 amended: the loop processes punches exactly in the order the device
returned them — the run over a concatenation is the run over the first part
followed by the run over the second — with no sorting step in between. -/
theorem C7_amended_device_order_processing
    (addr : Nat) (tz : Int) (users : List DeviceUser)
    (ps₁ ps₂ : List RawPunch) (s : LedgerState) :
    runD addr tz users (ps₁ ++ ps₂) s =
      runD addr tz users ps₂ (runD addr tz users ps₁ s) := by
  simp [runD, List.foldl_append]

/-- C8 counterexample: when the ledger write raised for the first punch, the
run aborts with the error instead of catching it, processing the second
punch and returning a count. -/
theorem C8_counterexample_error_aborts_run :
    runE (fun q => q.timestamp == 1000) 0 0 usersEx punchesUnsorted sEmpty =
      .error "write error" := by
  rfl

/-- C8 amended: a failure while processing one punch is not caught — it
propagates and aborts the processing of every later punch — and a run in
which no write fails returns the constant `True`, not a count of records. -/
theorem C8_amended_error_propagates
    (fails : RawPunch → Bool) (addr : Nat) (tz : Int)
    (users : List DeviceUser) (p : RawPunch) (ps qs : List RawPunch)
    (s : LedgerState)
    (hp : fails p = true) (hq : ∀ q ∈ qs, fails q = false) :
    runE fails addr tz users (p :: ps) s = .error "write error" ∧
    runE fails addr tz users qs s = .ok (true, runD addr tz users qs s) := by
  constructor
  · simp [runE, processPunchE, hp]
  · induction qs generalizing s with
    | nil => simp [runE, runD]
    | cons q qs ih =>
      have hq0 : fails q = false := hq q (by simp)
      have hrest : ∀ r ∈ qs, fails r = false := fun r hr => hq r (by simp [hr])
      simp only [runE, processPunchE, hq0, Bool.false_eq_true, if_false]
      rw [ih _ hrest]
      simp [runD]

/-- C8 witness: the two parts of the amended statement at concrete inputs. -/
theorem C8_witness :
    runE (fun q => q.timestamp == 1000) 0 0 usersEx punchesUnsorted sEmpty =
      .error "write error" ∧
    runE (fun q => q.timestamp == 1000) 0 0 usersEx [⟨7, 10, 0, 0⟩] sEmpty =
      .ok (true, runD 0 0 usersEx [⟨7, 10, 0, 0⟩] sEmpty) := by
  have h := C8_amended_error_propagates (fun q => q.timestamp == 1000) 0 0
    usersEx ⟨7, 1000, 1, 0⟩ [⟨7, 10, 0, 0⟩] [⟨7, 10, 0, 0⟩] sEmpty
    (by decide) (by decide)
  exact ⟨h.1, h.2⟩

/-- C9 counterexample: a successful download over a nonempty punch list ends
with the device still disabled and the session still connected — the claimed
re-enable and session close do not happen on this exit path. -/
theorem C9_counterexample_device_left_disabled :
    action_download_attendance true 0 0 usersEx punchesUnsorted sEmpty =
      .ok (true, ⟨true, true⟩, runD 0 0 usersEx punchesUnsorted sEmpty) := by
  rfl

/-- C9 amended: on the normal-completion exit path the device stays disabled
and the session stays connected: the source never calls `enable_device`, and
its final `conn.disconnect` is an attribute access rather than a call, so no
cleanup runs on any exit path. -/
theorem C9_amended_no_reenable_no_disconnect
    (addr : Nat) (tz : Int) (users : List DeviceUser)
    (punches : List RawPunch) (s : LedgerState)
    (hne : punches ≠ []) :
    action_download_attendance true addr tz users punches s =
      .ok (true, ⟨true, true⟩, runD addr tz users punches s) := by
  match punches, hne with
  | p :: ps, _ => rfl

/-- C9 witness: the amended statement at a concrete input. -/
theorem C9_witness :
    action_download_attendance true 5 0 usersEx [⟨7, 10, 0, 0⟩] sEmpty =
      .ok (true, ⟨true, true⟩, runD 5 0 usersEx [⟨7, 10, 0, 0⟩] sEmpty) :=
  C9_amended_no_reenable_no_disconnect 5 0 usersEx [⟨7, 10, 0, 0⟩] sEmpty
    (by decide)

/-- C10: with the `no_overtime_creation` context flag set, `create` on
`hr.attendance.overtime` leaves the overtime store unchanged and returns the
empty recordset; without the flag it performs the standard create. -/
theorem C10_no_overtime_creation_flag
    (st : OvertimeStore) (vals : OvertimeVals) :
    HrAttendanceOvertime.create true st vals = (st, []) ∧
    HrAttendanceOvertime.create false st vals = overtimeSuperCreate st vals := by
  constructor <;> rfl

end Biometric
